import Mathlib

/-!
A Lean model of the reporting core of the SOSi Linguist Management
Dashboard (src/sosi_dashboard.py): the loader, the per-language
aggregations, the fulfillment metrics, the gap analyzer, the
day-of-week bucketing and the free-text search, together with
theorems settling the specification claims about them.

Tables are modelled as a header row of column names plus a list of
rows, each row a list of cells aligned with the header.  Pandas
column selection, filtering, value_counts, reindex and in-place
column assignment are translated into explicit list operations.
-/

/-- A cell of an in-memory table: a string, an integer, a parsed date
(an abstract day number), or a missing value (NaN / NaT). -/
inductive Cell where
  | str (s : String)
  | num (n : Int)
  | date (d : Nat)
  | null
  deriving DecidableEq, Repr

/-- An in-memory table: a header of column names and a list of rows,
each row a list of cells aligned positionally with the header. -/
structure Table where
  header : List String
  rows : List (List Cell)
  deriving DecidableEq, Repr

/-- Number of occurrences of a value in a list. -/
def cnt {α : Type} [DecidableEq α] (k : α) : List α → Nat
  | [] => 0
  | x :: xs => (if x = k then 1 else 0) + cnt k xs

/-- Index of a column name in a header, leftmost occurrence
(models pandas positional column lookup). -/
def colIdx (name : String) : List String → Option Nat
  | [] => none
  | h :: hs => if h = name then some 0 else (colIdx name hs).map (· + 1)

/-- The cells of the named column, or none when the column is absent
(models df[name] where presence has been checked). -/
def Table.getCol (t : Table) (name : String) : Option (List Cell) :=
  (colIdx name t.header).map (fun j => t.rows.map (fun r => r.getD j Cell.null))

theorem cnt_le_length {α : Type} [DecidableEq α] (k : α) (l : List α) :
    cnt k l ≤ l.length := by
  induction l with
  | nil => simp [cnt]
  | cons x xs ih =>
    simp only [cnt, List.length_cons]
    split <;> omega

theorem cnt_eq_zero_of_not_mem {α : Type} [DecidableEq α] {k : α} {l : List α}
    (h : k ∉ l) : cnt k l = 0 := by
  induction l with
  | nil => rfl
  | cons x xs ih =>
    simp only [List.mem_cons, not_or] at h
    have hxk : ¬ x = k := fun hx => h.1 hx.symm
    simp [cnt, hxk, ih h.2]

theorem mem_of_cnt_pos {α : Type} [DecidableEq α] {k : α} {l : List α}
    (h : 0 < cnt k l) : k ∈ l := by
  by_contra hk
  rw [cnt_eq_zero_of_not_mem hk] at h
  exact Nat.lt_irrefl 0 h

theorem cnt_filter {α : Type} [DecidableEq α] {k : α} {p : α → Bool}
    (hk : p k = true) (l : List α) : cnt k (l.filter p) = cnt k l := by
  induction l with
  | nil => rfl
  | cons x xs ih =>
    by_cases hx : x = k
    · subst hx
      simp [List.filter_cons, hk, cnt, ih]
    · cases hpx : p x <;> simp [List.filter_cons, hpx, cnt, hx, ih]

theorem cnt_add_cnt_le {α : Type} [DecidableEq α] {a b : α} (hab : a ≠ b)
    (l : List α) : cnt a l + cnt b l ≤ l.length := by
  induction l with
  | nil => simp [cnt]
  | cons x xs ih =>
    simp only [cnt, List.length_cons]
    by_cases hxa : x = a
    · rw [if_pos hxa, if_neg (fun h => hab (hxa.symm.trans h))]
      omega
    · rw [if_neg hxa]
      by_cases hxb : x = b
      · rw [if_pos hxb]; omega
      · rw [if_neg hxb]; omega

theorem cnt_add_cnt_lt {α : Type} [DecidableEq α] {a b c : α} {l : List α}
    (hab : a ≠ b) (hc : c ∈ l) (hca : c ≠ a) (hcb : c ≠ b) :
    cnt a l + cnt b l < l.length := by
  induction l with
  | nil => simp at hc
  | cons x xs ih =>
    simp only [cnt, List.length_cons]
    rcases List.mem_cons.mp hc with hx | hx
    · rw [if_neg (fun h => hca (hx.trans h)), if_neg (fun h => hcb (hx.trans h))]
      have := cnt_add_cnt_le hab xs
      omega
    · have := ih hx
      by_cases hxa : x = a
      · rw [if_pos hxa, if_neg (fun h => hab (hxa.symm.trans h))]
        omega
      · rw [if_neg hxa]
        by_cases hxb : x = b
        · rw [if_pos hxb]; omega
        · rw [if_neg hxb]; omega

theorem colIdx_eq_none_iff {name : String} {hs : List String} :
    colIdx name hs = none ↔ name ∉ hs := by
  induction hs with
  | nil => simp [colIdx]
  | cons h hs ih =>
    by_cases hh : h = name
    · subst hh
      simp [colIdx]
    · simp [colIdx, hh, Option.map_eq_none', ih, Ne.symm hh]

theorem colIdx_isSome_of_mem {name : String} {hs : List String}
    (h : name ∈ hs) : ∃ j, colIdx name hs = some j := by
  cases hj : colIdx name hs with
  | some j => exact ⟨j, rfl⟩
  | none => exact absurd h (colIdx_eq_none_iff.mp hj)

theorem getD_colIdx {name : String} {hs : List String} {j : Nat}
    (h : colIdx name hs = some j) : hs.getD j "" = name := by
  induction hs generalizing j with
  | nil => simp [colIdx] at h
  | cons x xs ih =>
    by_cases hx : x = name
    · rw [colIdx, if_pos hx] at h
      cases h
      simpa using hx
    · rw [colIdx, if_neg hx] at h
      cases hc : colIdx name xs with
      | none => rw [hc] at h; simp at h
      | some j' =>
        rw [hc] at h
        simp only [Option.map_some'] at h
        cases h
        simpa using ih hc

/-- Boolean disequality, used as a filter predicate. -/
def neb {α : Type} [DecidableEq α] (x y : α) : Bool :=
  if y = x then false else true

theorem neb_eq_true {α : Type} [DecidableEq α] {x y : α} :
    neb x y = true ↔ ¬ y = x := by
  unfold neb
  split <;> simp_all

/-- Duplicate-free list of the values of a list, keeping the first
occurrence of each value in order of appearance. -/
def dedupF {α : Type} [DecidableEq α] : List α → List α
  | [] => []
  | x :: xs => x :: (dedupF xs).filter (neb x)

/-- Insert a (value, count) pair into a list sorted by descending
count, keeping the order sorted. -/
def insertDesc {α : Type} (p : α × Nat) : List (α × Nat) → List (α × Nat)
  | [] => [p]
  | q :: qs => if q.2 ≤ p.2 then p :: q :: qs else q :: insertDesc p qs

/-- Insertion sort of (value, count) pairs by descending count. -/
def sortDesc {α : Type} : List (α × Nat) → List (α × Nat)
  | [] => []
  | p :: ps => insertDesc p (sortDesc ps)

/-- Sortedness by descending count, as used for value_counts output. -/
def SortedDesc {α : Type} (l : List (α × Nat)) : Prop :=
  List.Pairwise (fun p q => q.2 ≤ p.2) l

/-- The pandas Series.value_counts operation: drop missing values,
count occurrences of each remaining value, return (value, count)
pairs sorted by descending count. -/
def valueCounts (xs : List Cell) : List (Cell × Nat) :=
  let ys := xs.filter (fun c => c ≠ Cell.null)
  sortDesc ((dedupF ys).map (fun k => (k, cnt k ys)))

theorem mem_dedupF {α : Type} [DecidableEq α] {a : α} {l : List α} :
    a ∈ dedupF l ↔ a ∈ l := by
  induction l with
  | nil => simp [dedupF]
  | cons x xs ih =>
    simp only [dedupF, List.mem_cons]
    constructor
    · rintro (h | h)
      · exact Or.inl h
      · exact Or.inr (ih.mp (List.mem_filter.mp h).1)
    · rintro (h | h)
      · exact Or.inl h
      · by_cases hax : a = x
        · exact Or.inl hax
        · exact Or.inr (List.mem_filter.mpr ⟨ih.mpr h, neb_eq_true.mpr hax⟩)

theorem nodup_dedupF {α : Type} [DecidableEq α] (l : List α) :
    (dedupF l).Nodup := by
  induction l with
  | nil => simp [dedupF]
  | cons x xs ih =>
    simp only [dedupF]
    refine List.Nodup.cons ?_ (List.Nodup.filter _ ih)
    intro hmem
    exact (neb_eq_true.mp (List.mem_filter.mp hmem).2) rfl

theorem nodup_sum_split {α : Type} [DecidableEq α] (f : α → Nat) (x : α)
    {l : List α} (h : l.Nodup) :
    (l.map f).sum =
      (if x ∈ l then f x else 0) + ((l.filter (neb x)).map f).sum := by
  induction l with
  | nil => simp
  | cons y ys ih =>
    have hy := List.nodup_cons.mp h
    rw [List.filter_cons]
    by_cases hyx : y = x
    · subst hyx
      rw [if_neg (by simp [neb] : ¬ (neb y y = true))]
      have hfil : ys.filter (neb y) = ys := by
        apply List.filter_eq_self.mpr
        intro a ha
        exact neb_eq_true.mpr (fun hay => hy.1 (hay ▸ ha))
      rw [hfil, if_pos (List.mem_cons_self y ys), List.map_cons, List.sum_cons]
    · rw [if_pos (neb_eq_true.mpr hyx)]
      have hxy : ¬ x = y := fun hxy => hyx hxy.symm
      rw [List.map_cons, List.sum_cons, List.map_cons, List.sum_cons, ih hy.2]
      have hxmem : (x ∈ y :: ys) ↔ (x ∈ ys) := by
        simp [List.mem_cons, hxy]
      by_cases hx : x ∈ ys
      · rw [if_pos hx, if_pos (hxmem.mpr hx)]
        omega
      · rw [if_neg hx, if_neg (fun hmem => hx (hxmem.mp hmem))]
        omega

theorem sum_cnt_dedupF {α : Type} [DecidableEq α] (l : List α) :
    ((dedupF l).map (fun k => cnt k l)).sum = l.length := by
  induction l with
  | nil => rfl
  | cons x xs ih =>
    rw [dedupF, List.map_cons, List.sum_cons, List.length_cons]
    have hcnt : cnt x (x :: xs) = 1 + cnt x xs := by
      simp [cnt]
    have hcong : ((dedupF xs).filter (neb x)).map (fun k => cnt k (x :: xs))
        = ((dedupF xs).filter (neb x)).map (fun k => cnt k xs) := by
      apply List.map_congr_left
      intro a ha
      have hax : ¬ x = a := by
        have h2 := neb_eq_true.mp (List.mem_filter.mp ha).2
        exact fun hxa => h2 hxa.symm
      simp [cnt, hax]
    rw [hcong]
    have hsplit := nodup_sum_split (fun k => cnt k xs) x (nodup_dedupF xs)
    have hfx : ((fun k => cnt k xs) x) = cnt x xs := rfl
    rw [hfx] at hsplit
    by_cases hx : x ∈ xs
    · rw [if_pos (mem_dedupF.mpr hx)] at hsplit
      omega
    · rw [if_neg (fun h => hx (mem_dedupF.mp h))] at hsplit
      have h0 : cnt x xs = 0 := cnt_eq_zero_of_not_mem hx
      omega

theorem mem_insertDesc {α : Type} {p a : α × Nat} {l : List (α × Nat)} :
    a ∈ insertDesc p l ↔ a = p ∨ a ∈ l := by
  induction l with
  | nil => simp [insertDesc]
  | cons q qs ih =>
    simp only [insertDesc]
    split
    · simp [List.mem_cons]
    · simp only [List.mem_cons, ih]
      tauto

theorem sum_insertDesc {α : Type} (p : α × Nat) (l : List (α × Nat)) :
    ((insertDesc p l).map (fun q => q.2)).sum = p.2 + (l.map (fun q => q.2)).sum := by
  induction l with
  | nil => simp [insertDesc]
  | cons q qs ih =>
    simp only [insertDesc]
    split
    · simp
    · simp only [List.map_cons, List.sum_cons, ih]
      omega

theorem sortedDesc_insertDesc {α : Type} {p : α × Nat} {l : List (α × Nat)}
    (h : SortedDesc l) : SortedDesc (insertDesc p l) := by
  induction l with
  | nil => simp [insertDesc, SortedDesc]
  | cons q qs ih =>
    have hq := List.pairwise_cons.mp h
    simp only [insertDesc]
    split
    · rename_i hle
      refine List.pairwise_cons.mpr ⟨?_, h⟩
      intro a ha
      rcases List.mem_cons.mp ha with ha | ha
      · exact ha ▸ hle
      · exact le_trans (hq.1 a ha) hle
    · rename_i hgt
      refine List.pairwise_cons.mpr ⟨?_, ih hq.2⟩
      intro a ha
      rcases mem_insertDesc.mp ha with ha | ha
      · subst ha
        omega
      · exact hq.1 a ha

theorem mem_sortDesc {α : Type} {a : α × Nat} {l : List (α × Nat)} :
    a ∈ sortDesc l ↔ a ∈ l := by
  induction l with
  | nil => simp [sortDesc]
  | cons p ps ih =>
    simp only [sortDesc, mem_insertDesc, List.mem_cons, ih]

theorem sortedDesc_sortDesc {α : Type} (l : List (α × Nat)) :
    SortedDesc (sortDesc l) := by
  induction l with
  | nil => exact List.Pairwise.nil
  | cons p ps ih => exact sortedDesc_insertDesc ih

theorem sum_sortDesc {α : Type} (l : List (α × Nat)) :
    ((sortDesc l).map (fun q => q.2)).sum = (l.map (fun q => q.2)).sum := by
  induction l with
  | nil => rfl
  | cons p ps ih =>
    simp only [sortDesc, sum_insertDesc, List.map_cons, List.sum_cons, ih]

/-- The language request statistics of process_language_stats restricted
to the (Language, Request Count) columns: value_counts of the Language
column, or an empty result when the Language column is absent
(sosi_dashboard.py lines 100 to 107). -/
def languageCounts (t : Table) : List (Cell × Nat) :=
  match colIdx "Language" t.header with
  | none => []
  | some k => valueCounts (t.rows.map (fun r => r.getD k Cell.null))

/-- Full result of process_language_stats: language counts, each with
its merged sourcing status when the Has Linguist? column is available.
A language is Sourceable when at least one of its rows has the exact
string YES (sosi_dashboard.py lines 100 to 117). -/
def process_language_stats (t : Table) : List (Cell × Nat × Option String) :=
  match colIdx "Language" t.header with
  | none => []
  | some k =>
    let counts := valueCounts (t.rows.map (fun r => r.getD k Cell.null))
    match colIdx "Has Linguist?" t.header with
    | none => counts.map (fun p => (p.1, p.2, none))
    | some j =>
      counts.map (fun p =>
        (p.1, p.2,
          some (if t.rows.any (fun r =>
                  decide (r.getD k Cell.null = p.1 ∧ r.getD j Cell.null = Cell.str "YES"))
                then "Sourceable" else "Not Sourceable")))

/-- Count of rows whose Has Linguist? cell is exactly the string YES
(sosi_dashboard.py line 150). -/
def fulfilledCount (t : Table) : Nat :=
  match t.getCol "Has Linguist?" with
  | none => 0
  | some cells => cnt (Cell.str "YES") cells

/-- Count of rows whose Has Linguist? cell is exactly the string NO
(sosi_dashboard.py line 161). -/
def unfulfilledCount (t : Table) : Nat :=
  match t.getCol "Has Linguist?" with
  | none => 0
  | some cells => cnt (Cell.str "NO") cells

/-- Fulfillment rate: fulfilled / total * 100 guarded by total > 0
(sosi_dashboard.py line 151), in exact rational arithmetic. -/
def fulfillmentRate (t : Table) : ℚ :=
  if 0 < t.rows.length then
    (fulfilledCount t : ℚ) / (t.rows.length : ℚ) * 100
  else 0

/-- One row of the critical_gaps table of tab 4: a language, its
number of unfulfilled requests, and its priority tier. -/
structure GapEntry where
  language : Cell
  unfulfilled : Nat
  priority : String
  deriving DecidableEq, Repr

/-- Priority tier of a gap count (sosi_dashboard.py line 326). -/
def tierOf (x : Nat) : String :=
  if 10 ≤ x then "CRITICAL" else if 5 ≤ x then "HIGH" else "MEDIUM"

/-- The Language cells of the rows filtered to Has Linguist? == NO,
the series whose value_counts feeds the gap table; empty when either
column is absent. -/
def noLinguistLangs (t : Table) : List Cell :=
  match colIdx "Has Linguist?" t.header, colIdx "Language" t.header with
  | some j, some k =>
    (t.rows.filter (fun r => decide (r.getD j Cell.null = Cell.str "NO"))).map
      (fun r => r.getD k Cell.null)
  | _, _ => []

/-- The Gap Analyzer of tab 4 (sosi_dashboard.py lines 319 to 327):
skipped entirely when Has Linguist? is absent; otherwise filters to
rows with Has Linguist? == NO, and if any remain takes value_counts
of their Language column, keeps counts of at least 5, and assigns a
priority tier.  Selecting the Language column of the filtered frame
raises a KeyError when that column is absent, which the code does
not guard against. -/
def gapAnalyzer (t : Table) : Except String (List GapEntry) :=
  match colIdx "Has Linguist?" t.header with
  | none => Except.ok []
  | some j =>
    let noRows := t.rows.filter (fun r => decide (r.getD j Cell.null = Cell.str "NO"))
    if noRows.isEmpty then Except.ok []
    else
      match colIdx "Language" t.header with
      | none => Except.error "KeyError: Language"
      | some k =>
        let gapSummary := valueCounts (noRows.map (fun r => r.getD k Cell.null))
        Except.ok ((gapSummary.filter (fun p => decide (5 ≤ p.2))).map
          (fun p => { language := p.1, unfulfilled := p.2, priority := tierOf p.2 }))

/-- Split a character list on a separator character. -/
def splitOnChar (sep : Char) : List Char → List (List Char)
  | [] => [[]]
  | c :: cs =>
    let rest := splitOnChar sep cs
    if c = sep then [] :: rest
    else
      match rest with
      | [] => [[c]]
      | g :: gs => (c :: g) :: gs

/-- Parse a non-empty all-digit character list as a decimal number. -/
def digitsToNat (cs : List Char) : Option Nat :=
  if cs.isEmpty then none
  else
    cs.foldl (fun acc c =>
      match acc with
      | none => none
      | some n => if c.isDigit then some (n * 10 + (c.toNat - 48)) else none)
      (some 0)

/-- Abstract date parser standing for pd.to_datetime on a single string:
accepts ISO style year-month-day text, yielding an abstract day number,
and rejects anything else. -/
def parseDateStr (s : String) : Option Nat :=
  match splitOnChar '-' s.data with
  | [y, m, d] =>
    match digitsToNat y, digitsToNat m, digitsToNat d with
    | some yn, some mn, some dn =>
      if 1 ≤ mn ∧ mn ≤ 12 ∧ 1 ≤ dn ∧ dn ≤ 31 then
        some (yn * 372 + (mn - 1) * 31 + (dn - 1))
      else none
    | _, _, _ => none
  | _ => none

/-- Cell-level pd.to_datetime with errors equal to coerce: strings are
parsed, unparsable values become NaT (null), numbers are taken as day
numbers, dates and nulls pass through (sosi_dashboard.py line 258). -/
def parseDateCell : Cell → Cell
  | Cell.str s =>
    match parseDateStr s with
    | some d => Cell.date d
    | none => Cell.null
  | Cell.num n => Cell.date n.toNat
  | Cell.date d => Cell.date d
  | Cell.null => Cell.null

/-- Replace the element at an index of a list, leaving every other
position unchanged. -/
def updateAt {α : Type} (j : Nat) (f : α → α) : List α → List α
  | [] => []
  | c :: cs =>
    match j with
    | 0 => f c :: cs
    | Nat.succ j => c :: updateAt j f cs

/-- The date columns converted in place by the Trends tab
(sosi_dashboard.py line 255). -/
def dateColumns : List String := ["Date of request", "Hearing Date", "Row Added"]

/-- In-place conversion of one named column with pd.to_datetime,
skipped when the column is absent (sosi_dashboard.py lines 256 to 258). -/
def convertCol (t : Table) (name : String) : Table :=
  match colIdx name t.header with
  | none => t
  | some j => { header := t.header, rows := t.rows.map (updateAt j parseDateCell) }

/-- The date-column conversion loop of the Trends tab: mutates the
loaded master table by overwriting each present date column with its
parsed values (sosi_dashboard.py lines 255 to 258). -/
def convertDateColumns (t : Table) : Table :=
  dateColumns.foldl convertCol t

/-- Fixed calendar order of weekday names (sosi_dashboard.py line 282). -/
def dayOrder : List String :=
  ["Monday", "Tuesday", "Wednesday", "Thursday", "Friday", "Saturday", "Sunday"]

/-- Weekday name of an abstract day number. -/
def dayName (d : Nat) : String := dayOrder.getD (d % 7) ""

/-- Weekday names of the parsed, non-null Row Added cells: models the
dropna on Row Added followed by dt.day_name
(sosi_dashboard.py lines 262 and 281). -/
def rowAddedWeekdays (cells : List Cell) : List String :=
  (((cells.map parseDateCell).filter (fun c => decide (c ≠ Cell.null))).map
    (fun c => match c with | Cell.date d => dayName d | _ => ""))

/-- Day-of-week request volume: value_counts of the weekday names
reindexed to the fixed Monday..Sunday order with missing days filled
with zero (sosi_dashboard.py lines 280 to 283); empty when the
Row Added column is absent, in which case the chart is skipped. -/
def dayOfWeekVolume (t : Table) : List (String × Nat) :=
  match t.getCol "Row Added" with
  | none => []
  | some cells => dayOrder.map (fun day => (day, cnt day (rowAddedWeekdays cells)))

/-- An uploaded Excel workbook: a corruption flag, the named sheets in
file order, with the first sheet being the default sheet that a plain
pd.read_excel call returns. -/
structure ExcelFile where
  corrupt : Bool
  sheets : List (String × Table)

/-- Failure modes of pd.read_excel: the file cannot be parsed at all,
or the requested named sheet does not exist. -/
inductive ReadError where
  | unreadable
  | sheetNotFound
  deriving DecidableEq, Repr

/-- Find a named sheet in a workbook. -/
def findSheet (name : String) : List (String × Table) → Option Table
  | [] => none
  | (n, t) :: rest => if n = name then some t else findSheet name rest

/-- Model of pd.read_excel: with a sheet name it returns that sheet or
fails; without one it returns the first (default) sheet; a corrupt
file fails on every read. -/
def readExcel (f : ExcelFile) : Option String → Except ReadError Table
  | some name =>
    if f.corrupt then Except.error ReadError.unreadable
    else
      match findSheet name f.sheets with
      | some t => Except.ok t
      | none => Except.error ReadError.sheetNotFound
  | none =>
    if f.corrupt then Except.error ReadError.unreadable
    else
      match f.sheets with
      | [] => Except.error ReadError.unreadable
      | (_, t) :: _ => Except.ok t

/-- Result of loading the analysis file: the analysis table and, when
the named-sheet reads succeeded, the summary table. -/
structure AnalysisLoad where
  analysis : Table
  summary : Option Table
  deriving DecidableEq, Repr

/-- The analysis branch of load_data (sosi_dashboard.py lines 86 to 92):
try to read the two named sheets; on any failure fall back to a plain
read of the default sheet, storing it under the analysis key only.  A
failure of the fallback read itself propagates to the caller. -/
def loadAnalysis (f : ExcelFile) : Except ReadError AnalysisLoad :=
  match readExcel f (some "All Historical Data") with
  | Except.ok a =>
    match readExcel f (some "Summary") with
    | Except.ok s => Except.ok { analysis := a, summary := some s }
    | Except.error _ =>
      (readExcel f none).map (fun d => { analysis := d, summary := none })
  | Except.error _ =>
    (readExcel f none).map (fun d => { analysis := d, summary := none })

/-- String form of a cell, as produced by Series.astype(str): strings
pass through, numbers print, missing values print as nan, and dates
print as their abstract day number. -/
def cellStr : Cell → String
  | Cell.str s => s
  | Cell.num n => toString n
  | Cell.date d => toString d
  | Cell.null => "nan"

/-- A token of the regular-expression fragment relevant to the search
box: a literal character or the dot wildcard.  Series.str.contains
interprets the search term as a regular expression by default; this
models its literal-and-dot fragment. -/
inductive RTok where
  | dot
  | lit (c : Char)
  deriving DecidableEq, Repr

/-- Parse a search term into pattern tokens: a dot is the any-character
wildcard, everything else matches literally. -/
def parsePat (p : String) : List RTok :=
  p.data.map (fun c => if c = '.' then RTok.dot else RTok.lit c)

/-- Case-insensitive match of one token against one character, as
re.IGNORECASE does for the case=False search. -/
def tokMatch : RTok → Char → Bool
  | RTok.dot, _ => true
  | RTok.lit c, d => c.toLower = d.toLower

/-- Match a token list against a prefix of the text. -/
def matchHere : List RTok → List Char → Bool
  | [], _ => true
  | _ :: _, [] => false
  | t :: ts, c :: cs => tokMatch t c && matchHere ts cs

/-- re.search semantics: the pattern may match starting at any
position of the text. -/
def reSearch (toks : List RTok) : List Char → Bool
  | [] => matchHere toks []
  | c :: cs => matchHere toks (c :: cs) || reSearch toks cs

/-- True when the row has some cell whose string form matches the
search term, the per-row lambda of the search mask
(sosi_dashboard.py line 405). -/
def rowMatches (q : String) (r : List Cell) : Bool :=
  r.any (fun c => reSearch (parsePat q) (cellStr c).data)

/-- The search of tab 5 (sosi_dashboard.py lines 402 to 406): keep the
rows where some column matches the term, with the term interpreted as
a case-insensitive regular expression. -/
def searchRows (t : Table) (q : String) : List (List Cell) :=
  t.rows.filter (rowMatches q)

/-- Prefix test on character lists after no case folding is needed:
true when the first list is an initial segment of the second. -/
def prefAt : List Char → List Char → Bool
  | [], _ => true
  | _ :: _, [] => false
  | p :: ps, c :: cs => (p = c) && prefAt ps cs

/-- Substring test on character lists. -/
def subStr (pat : List Char) : List Char → Bool
  | [] => pat.isEmpty
  | c :: cs => prefAt pat (c :: cs) || subStr pat cs

/-- Case-insensitive substring containment of the query in the text,
the reading of the search contract in the specification. -/
def containsCI (hay q : String) : Bool :=
  subStr (q.data.map Char.toLower) (hay.data.map Char.toLower)

/-- Search as the specification words it: the rows where some column
string representation contains the query as a case-insensitive
substring. -/
def specSearch (t : Table) (q : String) : List (List Cell) :=
  t.rows.filter (fun r => r.any (fun c => containsCI (cellStr c) q))

/-- Characters with a special meaning in regular expressions. -/
def metaChars : List Char :=
  ['.', '*', '+', '?', '[', ']', '(', ')', '\x7b', '\x7d', '\\', '|', '^', '$']

theorem getCol_eq_some {t : Table} {name : String} {cells : List Cell} :
    t.getCol name = some cells ↔
      ∃ j, colIdx name t.header = some j ∧
        cells = t.rows.map (fun r => r.getD j Cell.null) := by
  unfold Table.getCol
  cases hc : colIdx name t.header with
  | none => simp
  | some j =>
    simp only [Option.map_some', Option.some_inj]
    constructor
    · intro h
      exact ⟨j, rfl, h.symm⟩
    · rintro ⟨j', hj', rfl⟩
      cases hj'
      rfl

theorem mem_valueCounts {xs : List Cell} {p : Cell × Nat} :
    p ∈ valueCounts xs ↔ p.1 ≠ Cell.null ∧ p.1 ∈ xs ∧ p.2 = cnt p.1 xs := by
  obtain ⟨a, b⟩ := p
  unfold valueCounts
  rw [mem_sortDesc, List.mem_map]
  constructor
  · rintro ⟨kk, hkk, hpair⟩
    have hk1 : kk = a := congrArg Prod.fst hpair
    subst hk1
    have hb : cnt kk (xs.filter (fun c => decide (c ≠ Cell.null))) = b :=
      congrArg Prod.snd hpair
    have hmem := mem_dedupF.mp hkk
    have hfil := List.mem_filter.mp hmem
    have hnn : kk ≠ Cell.null := of_decide_eq_true hfil.2
    refine ⟨hnn, hfil.1, ?_⟩
    rw [← hb, @cnt_filter Cell _ kk (fun c => decide (c ≠ Cell.null)) (decide_eq_true hnn) xs]
  · rintro ⟨hnn, hmem, hcnt⟩
    refine ⟨a, mem_dedupF.mpr (List.mem_filter.mpr ⟨hmem, decide_eq_true hnn⟩), ?_⟩
    have : cnt a (xs.filter (fun c => decide (c ≠ Cell.null))) = b := by
      rw [@cnt_filter Cell _ a (fun c => decide (c ≠ Cell.null)) (decide_eq_true hnn) xs]
      exact hcnt.symm
    rw [this]

theorem sortedDesc_valueCounts (xs : List Cell) : SortedDesc (valueCounts xs) :=
  sortedDesc_sortDesc _

theorem sum_valueCounts (xs : List Cell) :
    ((valueCounts xs).map (fun q => q.2)).sum =
      (xs.filter (fun c => decide (c ≠ Cell.null))).length := by
  unfold valueCounts
  rw [sum_sortDesc, List.map_map]
  exact sum_cnt_dedupF _

/-- C4: the fulfillment rate equals the count of rows whose
Has Linguist? value is exactly YES, divided by the total row count and
multiplied by 100, when the table is non-empty; it is exactly 0 for an
empty table; and it always lies in [0, 100].  In the exact rational
model the guarded division is total, so the rate is never undefined. -/
theorem fulfillmentRate_spec (t : Table) (cells : List Cell)
    (h : t.getCol "Has Linguist?" = some cells) :
    (0 < t.rows.length →
      fulfillmentRate t = (cnt (Cell.str "YES") cells : ℚ) / (t.rows.length : ℚ) * 100) ∧
    (t.rows.length = 0 → fulfillmentRate t = 0) ∧
    0 ≤ fulfillmentRate t ∧ fulfillmentRate t ≤ 100 := by
  have hf : fulfilledCount t = cnt (Cell.str "YES") cells := by
    unfold fulfilledCount
    rw [h]
  have hlen : cells.length = t.rows.length := by
    obtain ⟨j, hj, rfl⟩ := getCol_eq_some.mp h
    simp
  have hle : cnt (Cell.str "YES") cells ≤ t.rows.length := by
    rw [← hlen]
    exact cnt_le_length _ _
  by_cases hpos : 0 < t.rows.length
  · have hrate : fulfillmentRate t =
        (cnt (Cell.str "YES") cells : ℚ) / (t.rows.length : ℚ) * 100 := by
      unfold fulfillmentRate
      rw [if_pos hpos, hf]
    have hL : (0 : ℚ) < (t.rows.length : ℚ) := by exact_mod_cast hpos
    have hcle : ((cnt (Cell.str "YES") cells : ℚ)) ≤ (t.rows.length : ℚ) := by
      exact_mod_cast hle
    refine ⟨fun _ => hrate, fun h0 => absurd h0 (Nat.pos_iff_ne_zero.mp hpos), ?_, ?_⟩
    · rw [hrate]
      positivity
    · rw [hrate]
      calc (cnt (Cell.str "YES") cells : ℚ) / (t.rows.length : ℚ) * 100
          ≤ 1 * 100 := by
            apply mul_le_mul_of_nonneg_right _ (by norm_num)
            exact div_le_one_of_le₀ hcle (le_of_lt hL)
        _ = 100 := by norm_num
  · have h0 : t.rows.length = 0 := Nat.eq_zero_of_not_pos hpos
    have hrate : fulfillmentRate t = 0 := by
      unfold fulfillmentRate
      rw [if_neg hpos]
    exact ⟨fun hp => absurd hp hpos, fun _ => hrate, by rw [hrate], by rw [hrate]; norm_num⟩

/-- Closed instance of the C4 theorem at a concrete three-row table
with one YES row, one NO row and one lowercase yes row. -/
theorem fulfillmentRate_spec_witness :
    0 ≤ fulfillmentRate (Table.mk ["Has Linguist?"]
        [[Cell.str "YES"], [Cell.str "NO"], [Cell.str "yes"]]) ∧
    fulfillmentRate (Table.mk ["Has Linguist?"]
        [[Cell.str "YES"], [Cell.str "NO"], [Cell.str "yes"]]) ≤ 100 :=
  ⟨(fulfillmentRate_spec
      (Table.mk ["Has Linguist?"] [[Cell.str "YES"], [Cell.str "NO"], [Cell.str "yes"]])
      [Cell.str "YES", Cell.str "NO", Cell.str "yes"] (by rfl)).2.2.1,
   (fulfillmentRate_spec
      (Table.mk ["Has Linguist?"] [[Cell.str "YES"], [Cell.str "NO"], [Cell.str "yes"]])
      [Cell.str "YES", Cell.str "NO", Cell.str "yes"] (by rfl)).2.2.2⟩

theorem process_language_stats_eq (t : Table) (j k : Nat)
    (hj : colIdx "Has Linguist?" t.header = some j)
    (hk : colIdx "Language" t.header = some k) :
    process_language_stats t =
      (valueCounts (t.rows.map (fun r => r.getD k Cell.null))).map (fun p =>
        (p.1, p.2,
          some (if t.rows.any (fun r =>
                  decide (r.getD k Cell.null = p.1 ∧ r.getD j Cell.null = Cell.str "YES"))
                then "Sourceable" else "Not Sourceable"))) := by
  unfold process_language_stats
  rw [hk, hj]

/-- C10: comparisons against the Has Linguist? column are exact,
case-sensitive string equality: the fulfilled count is the count of
cells exactly equal to the string YES, the unfulfilled count the count
of cells exactly equal to NO, a language is marked Sourceable exactly
when one of its rows holds the exact string YES, and fulfilled plus
unfulfilled never exceeds the row count, strictly whenever any other
value (such as lowercase yes or a blank) occurs in the column. -/
theorem hasLinguist_exact (t : Table) (j k : Nat)
    (hj : colIdx "Has Linguist?" t.header = some j)
    (hk : colIdx "Language" t.header = some k) :
    fulfilledCount t = cnt (Cell.str "YES") (t.rows.map (fun r => r.getD j Cell.null)) ∧
    unfulfilledCount t = cnt (Cell.str "NO") (t.rows.map (fun r => r.getD j Cell.null)) ∧
    fulfilledCount t + unfulfilledCount t ≤ t.rows.length ∧
    ((∃ r ∈ t.rows, r.getD j Cell.null ≠ Cell.str "YES" ∧ r.getD j Cell.null ≠ Cell.str "NO") →
      fulfilledCount t + unfulfilledCount t < t.rows.length) ∧
    (∀ p ∈ process_language_stats t,
      p.2.2 = some "Sourceable" ↔
        ∃ r ∈ t.rows, r.getD k Cell.null = p.1 ∧ r.getD j Cell.null = Cell.str "YES") := by
  have hcol : t.getCol "Has Linguist?" = some (t.rows.map (fun r => r.getD j Cell.null)) := by
    unfold Table.getCol
    rw [hj]
    rfl
  have hf : fulfilledCount t = cnt (Cell.str "YES") (t.rows.map (fun r => r.getD j Cell.null)) := by
    unfold fulfilledCount
    rw [hcol]
  have hu : unfulfilledCount t = cnt (Cell.str "NO") (t.rows.map (fun r => r.getD j Cell.null)) := by
    unfold unfulfilledCount
    rw [hcol]
  have hYN : Cell.str "YES" ≠ Cell.str "NO" := by decide
  refine ⟨hf, hu, ?_, ?_, ?_⟩
  · rw [hf, hu]
    have := cnt_add_cnt_le hYN (t.rows.map (fun r => r.getD j Cell.null))
    simpa using this
  · rintro ⟨r, hr, hry, hrn⟩
    rw [hf, hu]
    have hmem : r.getD j Cell.null ∈ t.rows.map (fun r => r.getD j Cell.null) :=
      List.mem_map_of_mem _ hr
    have := cnt_add_cnt_lt hYN hmem hry hrn
    simpa using this
  · intro p hp
    rw [process_language_stats_eq t j k hj hk] at hp
    obtain ⟨q, hq, rfl⟩ := List.mem_map.mp hp
    cases hany : t.rows.any (fun r =>
        decide (r.getD k Cell.null = q.1 ∧ r.getD j Cell.null = Cell.str "YES")) with
    | true =>
      obtain ⟨r, hr, hdec⟩ := List.any_eq_true.mp hany
      simp only [hany, if_true]
      constructor
      · intro _
        exact ⟨r, hr, of_decide_eq_true hdec⟩
      · intro _
        trivial
    | false =>
      simp only [hany, Bool.false_eq_true, if_false]
      constructor
      · intro hcontra
        simp at hcontra
      · rintro ⟨r, hr, hc1, hc2⟩
        have : t.rows.any (fun r =>
            decide (r.getD k Cell.null = q.1 ∧ r.getD j Cell.null = Cell.str "YES")) = true :=
          List.any_eq_true.mpr ⟨r, hr, decide_eq_true ⟨hc1, hc2⟩⟩
        rw [hany] at this
        exact absurd this (by simp)

/-- Closed instance of the C10 theorem at a concrete table holding the
values YES, NO and lowercase yes, where the strict inequality applies. -/
theorem hasLinguist_exact_witness :
    fulfilledCount (Table.mk ["Language", "Has Linguist?"]
        [[Cell.str "Farsi", Cell.str "YES"], [Cell.str "Farsi", Cell.str "NO"],
         [Cell.str "Urdu", Cell.str "yes"]]) +
      unfulfilledCount (Table.mk ["Language", "Has Linguist?"]
        [[Cell.str "Farsi", Cell.str "YES"], [Cell.str "Farsi", Cell.str "NO"],
         [Cell.str "Urdu", Cell.str "yes"]]) <
      (Table.mk ["Language", "Has Linguist?"]
        [[Cell.str "Farsi", Cell.str "YES"], [Cell.str "Farsi", Cell.str "NO"],
         [Cell.str "Urdu", Cell.str "yes"]]).rows.length :=
  (hasLinguist_exact (Table.mk ["Language", "Has Linguist?"]
      [[Cell.str "Farsi", Cell.str "YES"], [Cell.str "Farsi", Cell.str "NO"],
       [Cell.str "Urdu", Cell.str "yes"]]) 1 0 (by rfl) (by rfl)).2.2.2.1
    ⟨[Cell.str "Urdu", Cell.str "yes"], by simp, by decide, by decide⟩

/-- C5: when the Language column is present and holds no nulls, the
language counts sum to the number of rows; counts are non-negative and
the pairs are sorted by descending count; and when the Language column
is absent the result is empty rather than an error. -/
theorem languageCounts_spec (t : Table) :
    (∀ cells, t.getCol "Language" = some cells → Cell.null ∉ cells →
      ((languageCounts t).map (fun q => q.2)).sum = t.rows.length) ∧
    (∀ p ∈ languageCounts t, 0 ≤ p.2) ∧
    SortedDesc (languageCounts t) ∧
    ("Language" ∉ t.header → languageCounts t = []) := by
  refine ⟨?_, ?_, ?_, ?_⟩
  · intro cells hcol hnull
    obtain ⟨j, hj, hcells⟩ := getCol_eq_some.mp hcol
    have hlc : languageCounts t = valueCounts cells := by
      unfold languageCounts
      rw [hj, hcells]
    rw [hlc, sum_valueCounts]
    have hfil : cells.filter (fun c => decide (c ≠ Cell.null)) = cells := by
      apply List.filter_eq_self.mpr
      intro a ha
      exact decide_eq_true (fun hne => hnull (hne ▸ ha))
    rw [hfil, hcells]
    simp
  · intro p _
    exact Nat.zero_le _
  · unfold languageCounts
    cases colIdx "Language" t.header with
    | none => exact List.Pairwise.nil
    | some k => exact sortedDesc_valueCounts _
  · intro habs
    unfold languageCounts
    rw [colIdx_eq_none_iff.mpr habs]

/-- Closed instance of the C5 theorem: on a three-row table with a
null-free Language column the counts sum to the row count. -/
theorem languageCounts_spec_witness :
    ((languageCounts (Table.mk ["Language"]
        [[Cell.str "Farsi"], [Cell.str "Farsi"], [Cell.str "Dari"]])).map
      (fun q => q.2)).sum =
      (Table.mk ["Language"]
        [[Cell.str "Farsi"], [Cell.str "Farsi"], [Cell.str "Dari"]]).rows.length :=
  (languageCounts_spec (Table.mk ["Language"]
      [[Cell.str "Farsi"], [Cell.str "Farsi"], [Cell.str "Dari"]])).1
    [Cell.str "Farsi", Cell.str "Farsi", Cell.str "Dari"] (by rfl) (by decide)

/-- C6: whenever the Row Added column is present (the only case in
which the chart is drawn), the day-of-week volume has exactly 7
entries, its first components are the fixed calendar order Monday
through Sunday, and every weekday absent from the data gets count 0. -/
theorem dayOfWeekVolume_spec (t : Table) (cells : List Cell)
    (h : t.getCol "Row Added" = some cells) :
    (dayOfWeekVolume t).length = 7 ∧
    (dayOfWeekVolume t).map (fun p => p.1) = dayOrder ∧
    (∀ p ∈ dayOfWeekVolume t, p.1 ∉ rowAddedWeekdays cells → p.2 = 0) := by
  have hdef : dayOfWeekVolume t =
      dayOrder.map (fun day => (day, cnt day (rowAddedWeekdays cells))) := by
    unfold dayOfWeekVolume
    rw [h]
  refine ⟨?_, ?_, ?_⟩
  · rw [hdef]
    simp [dayOrder]
  · rw [hdef, List.map_map]
    exact List.map_id' dayOrder
  · rw [hdef]
    intro p hp hnot
    obtain ⟨day, hday, rfl⟩ := List.mem_map.mp hp
    exact cnt_eq_zero_of_not_mem hnot

/-- Closed instance of the C6 theorem at a one-row table: 7 entries in
the fixed Monday..Sunday order. -/
theorem dayOfWeekVolume_spec_witness :
    (dayOfWeekVolume (Table.mk ["Row Added"] [[Cell.str "2024-01-15"]])).length = 7 ∧
    (dayOfWeekVolume (Table.mk ["Row Added"] [[Cell.str "2024-01-15"]])).map
      (fun p => p.1) = dayOrder :=
  ⟨(dayOfWeekVolume_spec (Table.mk ["Row Added"] [[Cell.str "2024-01-15"]])
      [Cell.str "2024-01-15"] (by rfl)).1,
   (dayOfWeekVolume_spec (Table.mk ["Row Added"] [[Cell.str "2024-01-15"]])
      [Cell.str "2024-01-15"] (by rfl)).2.1⟩

theorem noLinguistLangs_eq {t : Table} {j k : Nat}
    (hj : colIdx "Has Linguist?" t.header = some j)
    (hk : colIdx "Language" t.header = some k) :
    noLinguistLangs t =
      (t.rows.filter (fun r => decide (r.getD j Cell.null = Cell.str "NO"))).map
        (fun r => r.getD k Cell.null) := by
  unfold noLinguistLangs
  rw [hj, hk]

theorem gapAnalyzer_eq_ok {t : Table} {j k : Nat}
    (hj : colIdx "Has Linguist?" t.header = some j)
    (hk : colIdx "Language" t.header = some k) :
    gapAnalyzer t = Except.ok
      (if (t.rows.filter (fun r => decide (r.getD j Cell.null = Cell.str "NO"))).isEmpty
       then []
       else ((valueCounts (noLinguistLangs t)).filter (fun p => decide (5 ≤ p.2))).map
         (fun p => { language := p.1, unfulfilled := p.2, priority := tierOf p.2 })) := by
  simp only [gapAnalyzer, hj, hk, noLinguistLangs_eq hj hk]
  by_cases hemp :
      (t.rows.filter (fun r => decide (r.getD j Cell.null = Cell.str "NO"))).isEmpty = true
  · rw [if_pos hemp, if_pos hemp]
  · rw [if_neg hemp, if_neg hemp]

theorem tierOf_eq_critical {n : Nat} (h : 10 ≤ n) : tierOf n = "CRITICAL" := by
  unfold tierOf
  rw [if_pos h]

theorem tierOf_eq_high {n : Nat} (h5 : 5 ≤ n) (h10 : ¬ 10 ≤ n) : tierOf n = "HIGH" := by
  unfold tierOf
  rw [if_neg h10, if_pos h5]

theorem tierOf_ne_medium {n : Nat} (h5 : 5 ≤ n) : tierOf n ≠ "MEDIUM" := by
  by_cases h10 : 10 ≤ n
  · rw [tierOf_eq_critical h10]
    decide
  · rw [tierOf_eq_high h5 h10]
    decide

/-- C2: for every input table, no entry returned by the Gap Analyzer
carries the MEDIUM priority tier: the count filter at threshold 5 runs
before tier assignment, and the tier function sends every count of at
least 5 to CRITICAL or HIGH, so its MEDIUM branch is unreachable. -/
theorem gap_no_medium (t : Table) (gs : List GapEntry)
    (h : gapAnalyzer t = Except.ok gs) : ∀ e ∈ gs, e.priority ≠ "MEDIUM" := by
  intro e he
  cases hj : colIdx "Has Linguist?" t.header with
  | none =>
    simp only [gapAnalyzer, hj] at h
    injection h with h2
    subst h2
    exact absurd he (List.not_mem_nil e)
  | some j =>
    simp only [gapAnalyzer, hj] at h
    by_cases hemp :
        (t.rows.filter (fun r => decide (r.getD j Cell.null = Cell.str "NO"))).isEmpty = true
    · rw [if_pos hemp] at h
      injection h with h2
      subst h2
      exact absurd he (List.not_mem_nil e)
    · rw [if_neg hemp] at h
      cases hk : colIdx "Language" t.header with
      | none =>
        simp only [hk] at h
        exact absurd h (by simp)
      | some k =>
        simp only [hk] at h
        injection h with h2
        subst h2
        obtain ⟨p, hpf, rfl⟩ := List.mem_map.mp he
        have h5 : 5 ≤ p.2 := of_decide_eq_true (List.mem_filter.mp hpf).2
        exact tierOf_ne_medium h5

/-- Closed instance of the C2 theorem: the entry emitted for a table
with five unfulfilled Farsi rows does not carry tier MEDIUM. -/
theorem gap_no_medium_witness :
    GapEntry.priority
      { language := Cell.str "Farsi", unfulfilled := 5, priority := "HIGH" } ≠ "MEDIUM" :=
  gap_no_medium
    (Table.mk ["Language", "Has Linguist?"]
      [[Cell.str "Farsi", Cell.str "NO"], [Cell.str "Farsi", Cell.str "NO"],
       [Cell.str "Farsi", Cell.str "NO"], [Cell.str "Farsi", Cell.str "NO"],
       [Cell.str "Farsi", Cell.str "NO"]])
    [{ language := Cell.str "Farsi", unfulfilled := 5, priority := "HIGH" }]
    (by rfl)
    { language := Cell.str "Farsi", unfulfilled := 5, priority := "HIGH" }
    (by simp)

/-- C1: for every analysis table carrying its Has Linguist? and
Language columns, the Gap Analyzer succeeds and returns exactly the
languages whose count of Has Linguist? == NO rows is at least 5, each
entry holding the true count; every entry with count at least 10 is
tiered CRITICAL, every entry with count in 5..9 is tiered HIGH, no
entry has count below 5, and the output is ordered by descending
count. -/
theorem gapAnalyzer_spec (t : Table) (j k : Nat)
    (hj : colIdx "Has Linguist?" t.header = some j)
    (hk : colIdx "Language" t.header = some k) :
    (∃ gs, gapAnalyzer t = Except.ok gs) ∧
    (∀ gs, gapAnalyzer t = Except.ok gs →
      (∀ e ∈ gs, e.language ≠ Cell.null ∧
        e.unfulfilled = cnt e.language (noLinguistLangs t) ∧ 5 ≤ e.unfulfilled) ∧
      (∀ l, l ≠ Cell.null → 5 ≤ cnt l (noLinguistLangs t) → ∃ e ∈ gs, e.language = l) ∧
      (∀ e ∈ gs, (10 ≤ e.unfulfilled → e.priority = "CRITICAL") ∧
        (e.unfulfilled < 10 → e.priority = "HIGH")) ∧
      List.Pairwise (fun a b => b.unfulfilled ≤ a.unfulfilled) gs) := by
  have heq := gapAnalyzer_eq_ok hj hk
  refine ⟨⟨_, heq⟩, ?_⟩
  intro gs hgs
  rw [heq] at hgs
  injection hgs with h2
  subst h2
  by_cases hemp :
      (t.rows.filter (fun r => decide (r.getD j Cell.null = Cell.str "NO"))).isEmpty = true
  · rw [if_pos hemp]
    have hempty : noLinguistLangs t = [] := by
      rw [noLinguistLangs_eq hj hk]
      rw [List.isEmpty_iff.mp hemp]
      rfl
    refine ⟨by simp, ?_, by simp, List.Pairwise.nil⟩
    intro l _ hcnt
    rw [hempty] at hcnt
    simp [cnt] at hcnt
  · rw [if_neg hemp]
    set L := noLinguistLangs t with hL
    refine ⟨?_, ?_, ?_, ?_⟩
    · intro e he
      obtain ⟨p, hpf, rfl⟩ := List.mem_map.mp he
      have hmem := List.mem_filter.mp hpf
      have hvc := mem_valueCounts.mp hmem.1
      have h5 : 5 ≤ p.2 := of_decide_eq_true hmem.2
      exact ⟨hvc.1, hvc.2.2, h5⟩
    · intro l hnn hcnt
      have hpos : 0 < cnt l L := lt_of_lt_of_le (by norm_num) hcnt
      have hmemL : l ∈ L := mem_of_cnt_pos hpos
      have hvc : (l, cnt l L) ∈ valueCounts L :=
        mem_valueCounts.mpr ⟨hnn, hmemL, rfl⟩
      have hfil : (l, cnt l L) ∈ (valueCounts L).filter (fun p => decide (5 ≤ p.2)) :=
        List.mem_filter.mpr ⟨hvc, decide_eq_true hcnt⟩
      exact ⟨{ language := l, unfulfilled := cnt l L, priority := tierOf (cnt l L) },
        List.mem_map_of_mem _ hfil, rfl⟩
    · intro e he
      obtain ⟨p, hpf, rfl⟩ := List.mem_map.mp he
      have h5 : 5 ≤ p.2 := of_decide_eq_true (List.mem_filter.mp hpf).2
      constructor
      · intro h10
        exact tierOf_eq_critical h10
      · intro hlt
        exact tierOf_eq_high h5 (Nat.not_le_of_lt hlt)
    · rw [List.pairwise_map]
      exact List.Pairwise.sublist (List.filter_sublist _) (sortedDesc_valueCounts L)

/-- Closed instance of the C1 theorem: on a table with ten unfulfilled
Farsi rows the emitted Farsi entry holds the true count 10, which
passes the threshold. -/
theorem gapAnalyzer_spec_witness :
    GapEntry.language
        { language := Cell.str "Farsi", unfulfilled := 10, priority := "CRITICAL" } ≠
          Cell.null ∧
      GapEntry.unfulfilled
        { language := Cell.str "Farsi", unfulfilled := 10, priority := "CRITICAL" } =
        cnt (GapEntry.language
          { language := Cell.str "Farsi", unfulfilled := 10, priority := "CRITICAL" })
          (noLinguistLangs (Table.mk ["Language", "Has Linguist?"]
            (List.replicate 10 [Cell.str "Farsi", Cell.str "NO"]))) ∧
      5 ≤ GapEntry.unfulfilled
        { language := Cell.str "Farsi", unfulfilled := 10, priority := "CRITICAL" } :=
  ((gapAnalyzer_spec (Table.mk ["Language", "Has Linguist?"]
      (List.replicate 10 [Cell.str "Farsi", Cell.str "NO"])) 1 0 (by rfl) (by rfl)).2
    [{ language := Cell.str "Farsi", unfulfilled := 10, priority := "CRITICAL" }]
    (by rfl)).1
    { language := Cell.str "Farsi", unfulfilled := 10, priority := "CRITICAL" }
    (by simp)

/-- Cell at row i, column j of a table, with null for positions out of
range. -/
def cellAt (t : Table) (i j : Nat) : Cell :=
  (t.rows.getD i []).getD j Cell.null

theorem convertCol_header (t : Table) (name : String) :
    (convertCol t name).header = t.header := by
  unfold convertCol
  cases colIdx name t.header <;> rfl

theorem convertCol_rows_length (t : Table) (name : String) :
    (convertCol t name).rows.length = t.rows.length := by
  unfold convertCol
  cases colIdx name t.header
  · rfl
  · simp

theorem updateAt_getD_ne {α : Type} (f : α → α) (d : α) :
    ∀ (l : List α) (i j : Nat), i ≠ j →
      (updateAt j f l).getD i d = l.getD i d := by
  intro l
  induction l with
  | nil => intro i j _; simp [updateAt]
  | cons c cs ih =>
    intro i j hne
    cases j with
    | zero =>
      cases i with
      | zero => exact absurd rfl hne
      | succ i => rfl
    | succ j =>
      cases i with
      | zero => rfl
      | succ i =>
        simp only [updateAt, List.getD_cons_succ]
        exact ih i j (fun h => hne (by rw [h]))

theorem getD_map_updateAt (f : Cell → Cell) {jj jn : Nat} (hne : jj ≠ jn) :
    ∀ (rows : List (List Cell)) (i : Nat),
      ((rows.map (updateAt jn f)).getD i []).getD jj Cell.null =
        (rows.getD i []).getD jj Cell.null := by
  intro rows
  induction rows with
  | nil => intro i; rfl
  | cons r rs ih =>
    intro i
    cases i with
    | zero =>
      simp only [List.map_cons, List.getD_cons_zero]
      exact updateAt_getD_ne f Cell.null r jj jn hne
    | succ i =>
      simp only [List.map_cons, List.getD_cons_succ]
      exact ih i

theorem cellAt_convertCol (t : Table) (name : String) {jj : Nat}
    (hne : t.header.getD jj "" ≠ name) (i : Nat) :
    cellAt (convertCol t name) i jj = cellAt t i jj := by
  unfold convertCol
  cases hcn : colIdx name t.header with
  | none => rfl
  | some jn =>
    have hjn : t.header.getD jn "" = name := getD_colIdx hcn
    have hjj : jj ≠ jn := fun h => hne (by rw [h, hjn])
    unfold cellAt
    exact getD_map_updateAt parseDateCell hjj t.rows i

theorem foldl_convertCol_header :
    ∀ (names : List String) (t : Table),
      (names.foldl convertCol t).header = t.header := by
  intro names
  induction names with
  | nil => intro t; rfl
  | cons n ns ih =>
    intro t
    rw [List.foldl_cons, ih, convertCol_header]

theorem foldl_convertCol_rows_length :
    ∀ (names : List String) (t : Table),
      (names.foldl convertCol t).rows.length = t.rows.length := by
  intro names
  induction names with
  | nil => intro t; rfl
  | cons n ns ih =>
    intro t
    rw [List.foldl_cons, ih, convertCol_rows_length]

theorem foldl_convertCol_cellAt :
    ∀ (names : List String) (t : Table) (i jj : Nat),
      t.header.getD jj "" ∉ names →
      cellAt (names.foldl convertCol t) i jj = cellAt t i jj := by
  intro names
  induction names with
  | nil => intro t i jj _; rfl
  | cons n ns ih =>
    intro t i jj hnot
    rw [List.foldl_cons]
    have hh : (convertCol t n).header = t.header := convertCol_header t n
    have hnotn : t.header.getD jj "" ∉ ns := fun hm => hnot (List.mem_cons_of_mem n hm)
    have hne : t.header.getD jj "" ≠ n :=
      fun h => hnot (by rw [h]; exact List.mem_cons_self n ns)
    rw [ih (convertCol t n) i jj (by rw [hh]; exact hnotn)]
    exact cellAt_convertCol t n hne i

/-- C3 counterexample: the Trends tab date conversion rewrites a cell
of the loaded master table in place: a Row Added value that fails to
parse is overwritten with null, so the loaded base table is not left
unchanged. -/
theorem convertDateColumns_mutates :
    convertDateColumns (Table.mk ["Row Added"] [[Cell.str "garbage"]]) ≠
      Table.mk ["Row Added"] [[Cell.str "garbage"]] := by
  decide

/-- C3 amended: the only post-load mutation is the Trends tab
rewriting the master table date columns (Date of request, Hearing
Date, Row Added) in place with parsed values; the conversion never
touches the header, never adds or deletes rows, and leaves every cell
outside those three columns unchanged, and all derived results are
recomputed from the tables. -/
theorem convertDateColumns_localized (t : Table) :
    (convertDateColumns t).header = t.header ∧
    (convertDateColumns t).rows.length = t.rows.length ∧
    (∀ i jj, t.header.getD jj "" ∉ dateColumns →
      cellAt (convertDateColumns t) i jj = cellAt t i jj) := by
  refine ⟨foldl_convertCol_header dateColumns t,
    foldl_convertCol_rows_length dateColumns t, ?_⟩
  intro i jj hnot
  exact foldl_convertCol_cellAt dateColumns t i jj hnot

/-- Closed instance of the C3 amended theorem: converting a master
table with a COI column and an unparsable Row Added column leaves the
header, the row count and the COI cell unchanged. -/
theorem convertDateColumns_localized_witness :
    (convertDateColumns (Table.mk ["COI", "Row Added"]
        [[Cell.str "x", Cell.str "garbage"]])).header =
      (Table.mk ["COI", "Row Added"] [[Cell.str "x", Cell.str "garbage"]]).header ∧
    cellAt (convertDateColumns (Table.mk ["COI", "Row Added"]
        [[Cell.str "x", Cell.str "garbage"]])) 0 0 =
      cellAt (Table.mk ["COI", "Row Added"] [[Cell.str "x", Cell.str "garbage"]]) 0 0 :=
  ⟨(convertDateColumns_localized (Table.mk ["COI", "Row Added"]
      [[Cell.str "x", Cell.str "garbage"]])).1,
   (convertDateColumns_localized (Table.mk ["COI", "Row Added"]
      [[Cell.str "x", Cell.str "garbage"]])).2.2 0 0 (by decide)⟩

/-- C7 counterexample: for an unreadable analysis file the named-sheet
read fails, yet the fallback default-sheet read fails as well and the
error is surfaced to the caller, contradicting the claim that a failed
named-sheet read is never surfaced as an error. -/
theorem loadAnalysis_corrupt_surfaces_error :
    readExcel { corrupt := true, sheets := [] } (some "All Historical Data") =
      Except.error ReadError.unreadable ∧
    loadAnalysis { corrupt := true, sheets := [] } =
      Except.error ReadError.unreadable := by
  constructor
  · rfl
  · rfl

/-- C7 amended: if either named-sheet read fails for any reason and
the default-sheet read succeeds, the loader falls back to the default
sheet under the analysis key only, the summary is absent and no error
is surfaced; when the fallback read itself fails (unreadable file) the
error propagates to the caller. -/
theorem loadAnalysis_fallback (f : ExcelFile) (d : Table)
    (hbad : (∃ e, readExcel f (some "All Historical Data") = Except.error e) ∨
      (∃ e, readExcel f (some "Summary") = Except.error e))
    (hd : readExcel f none = Except.ok d) :
    loadAnalysis f = Except.ok { analysis := d, summary := none } := by
  cases hA : readExcel f (some "All Historical Data") with
  | error e =>
    simp [loadAnalysis, hA, hd]
    rfl
  | ok a =>
    cases hS : readExcel f (some "Summary") with
    | error e =>
      simp [loadAnalysis, hA, hS, hd]
      rfl
    | ok s =>
      rcases hbad with ⟨e, he⟩ | ⟨e, he⟩
      · rw [hA] at he
        exact absurd he (by simp)
      · rw [hS] at he
        exact absurd he (by simp)

/-- Closed instance of the C7 amended theorem: an analysis file whose
Summary sheet is missing degrades to the default sheet with no summary
and no error. -/
theorem loadAnalysis_fallback_witness :
    loadAnalysis
        { corrupt := false,
          sheets := [("All Historical Data", Table.mk ["Language"] [[Cell.str "Farsi"]])] } =
      Except.ok
        { analysis := Table.mk ["Language"] [[Cell.str "Farsi"]], summary := none } :=
  loadAnalysis_fallback
    { corrupt := false,
      sheets := [("All Historical Data", Table.mk ["Language"] [[Cell.str "Farsi"]])] }
    (Table.mk ["Language"] [[Cell.str "Farsi"]])
    (Or.inr ⟨ReadError.sheetNotFound, by rfl⟩)
    (by rfl)

/-- C8 counterexample: on a table that has the Has Linguist? column
with an unfulfilled row but no Language column, the gap computation
raises a KeyError instead of yielding an empty result, contradicting
the claim that a missing expected column never causes an exception. -/
theorem gapAnalyzer_keyError :
    gapAnalyzer (Table.mk ["Has Linguist?"] [[Cell.str "NO"]]) =
      Except.error "KeyError: Language" := by
  rfl

/-- C8 amended: when the Has Linguist? column is missing the Gap
Analyzer returns an empty result and languageCounts is still computed
from the Language column alone (empty when Language is missing too);
each function guards only the column it branches on, however, so the
unguarded Language selection inside the gap path raises a KeyError
when Has Linguist? is present with some NO row and Language is
absent. -/
theorem missing_column_guards (t : Table) :
    ("Has Linguist?" ∉ t.header → gapAnalyzer t = Except.ok []) ∧
    (∀ cells, t.getCol "Language" = some cells → languageCounts t = valueCounts cells) ∧
    ("Language" ∉ t.header → languageCounts t = []) := by
  refine ⟨?_, ?_, ?_⟩
  · intro habs
    unfold gapAnalyzer
    rw [colIdx_eq_none_iff.mpr habs]
  · intro cells hcol
    obtain ⟨j, hj, hcells⟩ := getCol_eq_some.mp hcol
    unfold languageCounts
    rw [hj, hcells]
  · intro habs
    unfold languageCounts
    rw [colIdx_eq_none_iff.mpr habs]

/-- Closed instance of the C8 amended theorem: with no Has Linguist?
column the Gap Analyzer yields an empty result and languageCounts is
still computed from Language. -/
theorem missing_column_guards_witness :
    gapAnalyzer (Table.mk ["Language"] [[Cell.str "Farsi"]]) = Except.ok [] ∧
    languageCounts (Table.mk ["Language"] [[Cell.str "Farsi"]]) =
      valueCounts [Cell.str "Farsi"] :=
  ⟨(missing_column_guards (Table.mk ["Language"] [[Cell.str "Farsi"]])).1 (by decide),
   (missing_column_guards (Table.mk ["Language"] [[Cell.str "Farsi"]])).2.1
     [Cell.str "Farsi"] (by rfl)⟩

theorem matchHere_lit (q : List Char) (hq : ∀ c ∈ q, c ≠ '.') :
    ∀ s : List Char,
      matchHere (q.map (fun c => if c = '.' then RTok.dot else RTok.lit c)) s =
        prefAt (q.map Char.toLower) (s.map Char.toLower) := by
  induction q with
  | nil => intro s; cases s <;> rfl
  | cons c cs ih =>
    intro s
    have hc : c ≠ '.' := hq c (List.mem_cons_self c cs)
    have hq2 : ∀ x ∈ cs, x ≠ '.' := fun x hx => hq x (List.mem_cons_of_mem c hx)
    cases s with
    | nil =>
      simp only [List.map_cons]
      rw [if_neg hc]
      rfl
    | cons d ds =>
      simp only [List.map_cons]
      rw [if_neg hc]
      simp only [matchHere, prefAt, tokMatch]
      rw [ih hq2 ds]

theorem reSearch_lit (q : List Char) (hq : ∀ c ∈ q, c ≠ '.') :
    ∀ s : List Char,
      reSearch (q.map (fun c => if c = '.' then RTok.dot else RTok.lit c)) s =
        subStr (q.map Char.toLower) (s.map Char.toLower) := by
  intro s
  induction s with
  | nil =>
    rw [reSearch, matchHere_lit q hq []]
    cases q with
    | nil => rfl
    | cons c cs =>
      simp only [List.map_cons, subStr, prefAt]
      rfl
  | cons d ds ih =>
    simp only [List.map_cons, reSearch, subStr]
    rw [matchHere_lit q hq (d :: ds), ih]
    simp only [List.map_cons]

/-- C9 counterexample: the search term is passed to the matcher as a
regular expression, not as a literal substring: the dot query matches
a row whose only cell does not contain a dot character, so the rows
returned by the code differ from the substring semantics the claim
states. -/
theorem search_regex_ne_substring :
    searchRows (Table.mk ["Language"] [[Cell.str "xz"]]) "." ≠
      specSearch (Table.mk ["Language"] [[Cell.str "xz"]]) "." := by
  decide

/-- C9 amended: for every table and every query containing no regular
expression metacharacter, the search returns exactly the rows where at
least one column string representation contains the query as a
case-insensitive substring (non-string cells are stringified first);
for queries with metacharacters the term is interpreted as a regular
expression instead, where the substring reading fails. -/
theorem searchRows_literal (t : Table) (q : String)
    (hq : ∀ c ∈ q.data, c ∉ metaChars) :
    searchRows t q = specSearch t q := by
  have hdot : ∀ c ∈ q.data, c ≠ '.' := by
    intro c hc hpe
    exact hq c hc (by rw [hpe]; exact List.mem_cons_self '.' _)
  unfold searchRows specSearch
  apply List.filter_congr
  intro r _
  unfold rowMatches
  have hfun : ∀ c : Cell,
      reSearch (parsePat q) (cellStr c).data = containsCI (cellStr c) q := by
    intro c
    unfold parsePat containsCI
    exact reSearch_lit q.data hdot (cellStr c).data
  simp only [hfun]

/-- Closed instance of the C9 amended theorem: the lowercase query
spanish returns exactly the rows containing Spanish or SPANISH in any
letter case. -/
theorem searchRows_literal_witness :
    searchRows (Table.mk ["Language"]
        [[Cell.str "Spanish"], [Cell.str "SPANISH"], [Cell.str "french"]]) "spanish" =
      specSearch (Table.mk ["Language"]
        [[Cell.str "Spanish"], [Cell.str "SPANISH"], [Cell.str "french"]]) "spanish" :=
  searchRows_literal
    (Table.mk ["Language"]
      [[Cell.str "Spanish"], [Cell.str "SPANISH"], [Cell.str "french"]])
    "spanish" (by decide)
